import Mathlib

/-!
Verification development for the timed-event keypress playback engine
(`src-tauri/src/keypress_simulator.rs`).

Modelling conventions:
* Rust `&str` values are modelled as `List Char`; `str::split('+')` is
  modelled by `splitPlus`, which splits on every `'+'` occurrence exactly as
  Rust does (so `"".split('+') = [""]` becomes `splitPlus [] = [[]]`).
* Rust `str::len()` is the UTF-8 byte length, modelled as the sum of
  `Char.utf8Size` over the characters of the token.
* Rust `str::to_lowercase()` is modelled as per-character lowercasing with
  `Char.toLower`; every keyword it is compared against is plain ASCII.
  `char::to_ascii_lowercase` is exactly `Char.toLower`.
* `f64` times and durations are modelled as `ℚ`; the `as u64` truncation in
  `Duration::from_millis((duration * 1000.0).max(50.0) as u64)` is modelled
  with the integer floor.
* The `enigo` injection calls are side effects; they are modelled by an
  oracle `inject : Action → Bool` saying whether each call succeeds, and
  each function returns the list of successfully performed `Action`s (its
  trace) together with its `Result`.  The Rust error strings interpolate
  the platform error with `{:?}`; the model keeps the fixed message prefix.
* The `cfg!(target_os = "macos")` / `#[cfg(target_os = "macos")]` platform
  split is a boolean parameter `macos`.
-/

namespace KeypressSim

/-- The subset of `enigo::Key` used by the simulator: the four modifier
variants and `Key::Unicode(ch)`. -/
inductive Key where
  | shift
  | control
  | alt
  | meta
  | unicode (c : Char)
deriving DecidableEq, Repr

/-- An `enigo::Direction` (`Press` or `Release`). -/
inductive Dir where
  | press
  | release
deriving DecidableEq, Repr

/-- One observable side effect of the simulator: an `enigo.key` call, an
`enigo.raw` call (raw virtual key code, macOS only), or a `thread::sleep`
of a whole number of milliseconds. -/
inductive Action where
  | key (k : Key) (d : Dir)
  | raw (code : Nat) (d : Dir)
  | sleep (ms : Nat)
deriving DecidableEq, Repr

/-- A timed key event (`KeyEvent` in the source): `time` is the offset in
seconds from playback start, `key` the textual key expression, `duration`
the requested hold time in seconds. -/
structure KeyEvent where
  time : ℚ
  key : List Char
  duration : ℚ
deriving DecidableEq, Repr

/-- Embedding of `char_to_macos_keycode`: maps a character to its macOS
`kVK_ANSI_*` virtual key code after ASCII lowercasing, `none` for any
character outside `a`–`z`, `0`–`9`. -/
def char_to_macos_keycode (ch : Char) : Option Nat :=
  match ch.toLower with
  | 'a' => some 0x00
  | 'b' => some 0x0B
  | 'c' => some 0x08
  | 'd' => some 0x02
  | 'e' => some 0x0E
  | 'f' => some 0x03
  | 'g' => some 0x05
  | 'h' => some 0x04
  | 'i' => some 0x22
  | 'j' => some 0x26
  | 'k' => some 0x28
  | 'l' => some 0x25
  | 'm' => some 0x2E
  | 'n' => some 0x2D
  | 'o' => some 0x1F
  | 'p' => some 0x23
  | 'q' => some 0x0C
  | 'r' => some 0x0F
  | 's' => some 0x01
  | 't' => some 0x11
  | 'u' => some 0x20
  | 'v' => some 0x09
  | 'w' => some 0x0D
  | 'x' => some 0x07
  | 'y' => some 0x10
  | 'z' => some 0x06
  | '0' => some 0x1D
  | '1' => some 0x12
  | '2' => some 0x13
  | '3' => some 0x14
  | '4' => some 0x15
  | '5' => some 0x17
  | '6' => some 0x16
  | '7' => some 0x1A
  | '8' => some 0x1C
  | '9' => some 0x19
  | _ => none

/-- Rust `str::split('+')` on a string modelled as a character list: every
occurrence of `'+'` separates two (possibly empty) tokens, and the empty
string yields the single empty token. -/
def splitPlus : List Char → List (List Char)
  | [] => [[]]
  | c :: rest =>
    if c = '+' then
      [] :: splitPlus rest
    else
      match splitPlus rest with
      | [] => [[c]]
      | p :: ps => (c :: p) :: ps

/-- The UTF-8 byte length of a token, i.e. Rust `str::len()`. -/
def byteLen (token : List Char) : Nat :=
  (token.map Char.utf8Size).sum

/-- The modifier-token table of `parse_key_string` (the `match` on the
lowercased token): `shift`, `ctrl`/`control` (Meta on macOS, Control
elsewhere), `alt`, and the Meta aliases. `none` for an unknown token.
The argument is the already-lowercased token. -/
def modifierOf (macos : Bool) (t : List Char) : Option Key :=
  if t = "shift".toList then some Key.shift
  else if t = "ctrl".toList ∨ t = "control".toList then
    some (if macos then Key.meta else Key.control)
  else if t = "alt".toList then some Key.alt
  else if t = "meta".toList ∨ t = "cmd".toList ∨ t = "command".toList ∨
          t = "win".toList ∨ t = "super".toList then some Key.meta
  else none

/-- The indexed for-loop of `parse_key_string`, as recursion over the token
list: every token before the last must be a recognized modifier (the first
unknown one aborts with its error), and the last token is the main key,
required to be a single byte (`part.len() == 1`). -/
def parseParts (macos : Bool) : List (List Char) → Except String (List Key × Option Char)
  | [] => Except.ok ([], none)
  | [last] =>
    if byteLen last = 1 then
      Except.ok ([], last.head?)
    else
      Except.error ("Invalid main key: " ++ String.mk last)
  | part :: p2 :: rest =>
    match modifierOf macos (part.map Char.toLower) with
    | some k =>
      match parseParts macos (p2 :: rest) with
      | Except.ok (ms, mk) => Except.ok (k :: ms, mk)
      | Except.error e => Except.error e
    | none => Except.error ("Unknown modifier key: " ++ String.mk part)

/-- Embedding of `parse_key_string`: split the expression on `'+'` and run
the token loop. -/
def parse_key_string (macos : Bool) (key_str : List Char) :
    Except String (List Key × Option Char) :=
  parseParts macos (splitPlus key_str)

/-- Specification-side modifier table, written from the claim's wording:
each token is mapped case-insensitively — `shift` to Shift, `alt` to Alt,
`meta`/`cmd`/`command`/`win`/`super` to Meta, and `ctrl`/`control` to Meta
on macOS and Control elsewhere. -/
def modifierSpec (macos : Bool) (token : List Char) : Option Key :=
  let t := token.map Char.toLower
  if t = "shift".toList then some Key.shift
  else if t = "alt".toList then some Key.alt
  else if t = "meta".toList ∨ t = "cmd".toList ∨ t = "command".toList ∨
      t = "win".toList ∨ t = "super".toList then some Key.meta
  else if t = "ctrl".toList ∨ t = "control".toList then
    if macos then some Key.meta else some Key.control
  else none

/-- The first token of a list that the specification's modifier table does
not recognize, scanning left to right. -/
def firstUnknownModifier (macos : Bool) : List (List Char) → Option (List Char)
  | [] => none
  | t :: rest =>
    if (modifierSpec macos t).isSome then firstUnknownModifier macos rest
    else some t

/-- Specification-side parser, written from the claim's description (with
the byte-length amendment): split on `'+'`; all tokens but the last are
modifiers collected in written order, the first unrecognized one is
reported; the final token is the main key and must be a single one-byte
(ASCII) character. -/
def parse_key_spec (macos : Bool) (cs : List Char) :
    Except String (List Key × Option Char) :=
  let parts := splitPlus cs
  let modToks := parts.dropLast
  let lastTok := parts.getLast?.getD []
  match firstUnknownModifier macos modToks with
  | some t => Except.error ("Unknown modifier key: " ++ String.mk t)
  | none =>
    if byteLen lastTok = 1 then
      Except.ok (modToks.filterMap (modifierSpec macos), lastTok.head?)
    else
      Except.error ("Invalid main key: " ++ String.mk lastTok)

/-- The hold time in whole milliseconds:
`Duration::from_millis((duration * 1000.0).max(50.0) as u64)`, with the
`as u64` truncation modelled by the floor. The argument is in seconds. -/
def hold_millis (duration : ℚ) : Nat :=
  (⌊max (duration * 1000) 50⌋).toNat

/-- Run a planned sequence of injection calls in order. Each entry pairs the
action with the error message returned if its `enigo` call fails; a `sleep`
is `thread::sleep` and cannot fail. The result is the list of actions
actually performed and the `Result`: the `?` operator in the source returns
the first failure immediately, so nothing after a failed call runs. -/
def execSeq (inject : Action → Bool) : List (Action × String) → List Action × Except String Unit
  | [] => ([], Except.ok ())
  | (a, msg) :: rest =>
    match a with
    | Action.sleep n =>
      let r := execSeq inject rest
      (Action.sleep n :: r.1, r.2)
    | _ =>
      if inject a then
        let r := execSeq inject rest
        (a :: r.1, r.2)
      else
        ([], Except.error msg)

/-- Embedding of `simulate_keypress`: parse the key string, press the
modifiers in written order, press/hold/release the main key — through the
raw macOS key code when `macos`, through `Key::Unicode` otherwise — and
release the modifiers in reverse order. Returns the performed actions and
the `Result`. -/
def simulate_keypress (macos : Bool) (inject : Action → Bool) (key_str : List Char)
    (duration : ℚ) : List Action × Except String Unit :=
  match parse_key_string macos key_str with
  | Except.error e => ([], Except.error e)
  | Except.ok (modifiers, main_key) =>
    let pm := execSeq inject
      (modifiers.map fun m => (Action.key m Dir.press, "Failed to press modifier"))
    match pm.2 with
    | Except.error e => (pm.1, Except.error e)
    | Except.ok _ =>
      let mainRes : List Action × Except String Unit :=
        match main_key with
        | none => ([], Except.ok ())
        | some ch =>
          if macos then
            match char_to_macos_keycode ch with
            | some kc =>
              execSeq inject
                [(Action.raw kc Dir.press, "Failed to press key"),
                 (Action.sleep (hold_millis duration), ""),
                 (Action.raw kc Dir.release, "Failed to release key")]
            | none => ([], Except.error ("Unsupported character: " ++ String.mk [ch]))
          else
            execSeq inject
              [(Action.key (Key.unicode ch) Dir.press, "Failed to press key"),
               (Action.sleep (hold_millis duration), ""),
               (Action.key (Key.unicode ch) Dir.release, "Failed to release key")]
      match mainRes.2 with
      | Except.error e => (pm.1 ++ mainRes.1, Except.error e)
      | Except.ok _ =>
        let rm := execSeq inject
          (modifiers.reverse.map fun m => (Action.key m Dir.release, "Failed to release modifier"))
        (pm.1 ++ mainRes.1 ++ rm.1, rm.2)

/-- The shared playback state: the stored background handle (`Some` id while
a run is stored) and the cancellation flag `SHOULD_STOP`. Handles are
abstracted as numeric identifiers. -/
structure PlaybackState where
  playback_handle : Option Nat
  should_stop : Bool
deriving DecidableEq, Repr

/-- The synchronous effect of `start_playback` on the shared state: reject
when a handle is stored, otherwise clear the cancellation flag, spawn the
background run and store its handle. The middle component is the event list
handed to the spawned run (`none` when no thread is spawned); the function
returns without waiting for that run. -/
def start_playback (s : PlaybackState) (events : List KeyEvent) (newId : Nat) :
    PlaybackState × Option (List KeyEvent) × Except String Unit :=
  if s.playback_handle.isSome then
    (s, none, Except.error "Playback already in progress")
  else
    ({ playback_handle := some newId, should_stop := false }, some events, Except.ok ())

/-- The synchronous effect of `stop_playback`: set the cancellation flag,
take the stored handle (leaving `None`), and join the taken handle if any.
The middle component is the handle that was taken and joined. -/
def stop_playback (s : PlaybackState) : PlaybackState × Option Nat × Except String Unit :=
  let s1 : PlaybackState := { s with should_stop := true }
  let taken := s1.playback_handle
  ({ s1 with playback_handle := none }, taken, Except.ok ())

/-- The wait computed by the scheduler for one event: the remaining time to
the target instant when the target is still in the future, and no wait at
all otherwise (`if target_time > elapsed`). -/
def wait_time (time elapsed : ℚ) : ℚ :=
  if elapsed < time then time - elapsed else 0

/-- Decidable equality of `Except` results, needed to decide statements
about concrete traces. -/
instance exceptDecEq (ε α : Type) [DecidableEq ε] [DecidableEq α] :
    DecidableEq (Except ε α) :=
  fun x y =>
  match x, y with
  | Except.ok a, Except.ok b =>
    if h : a = b then Decidable.isTrue (by rw [h])
    else Decidable.isFalse (fun hc => h (by injection hc))
  | Except.ok _, Except.error _ => Decidable.isFalse (fun hc => Except.noConfusion hc)
  | Except.error _, Except.ok _ => Decidable.isFalse (fun hc => Except.noConfusion hc)
  | Except.error a, Except.error b =>
    if h : a = b then Decidable.isTrue (by rw [h])
    else Decidable.isFalse (fun hc => h (by injection hc))

/-- One observable step of the background playback loop: a read of the
cancellation flag (with its value), a sleep until the target instant, or a
`simulate_keypress` call recorded with its key, duration and outcome. -/
inductive TraceStep where
  | stopCheck (idx : Nat) (value : Bool)
  | wait (amount : ℚ)
  | keypress (key : List Char) (duration : ℚ) (out : List Action × Except String Unit)
deriving DecidableEq, Repr

/-- Embedding of the `for event in events` loop of the spawned thread in
`start_playback`. `stopFlag k` is the value of `SHOULD_STOP` at the k-th
flag read of the run; `elapsed i` is the monotonic-clock reading
`start_time.elapsed()` taken at the i-th loop iteration. Each iteration
checks the flag (breaking on `true`), sleeps only when the target instant
is still in the future, re-checks the flag (breaking on `true`), and runs
`simulate_keypress`, ignoring its error. -/
def playback_run (macos : Bool) (stopFlag : Nat → Bool) (elapsed : Nat → ℚ)
    (inject : Action → Bool) : List KeyEvent → Nat → Nat → List TraceStep
  | [], _, _ => []
  | e :: rest, i, c =>
    if stopFlag c then
      [TraceStep.stopCheck c true]
    else
      TraceStep.stopCheck c false ::
        ((if elapsed i < e.time then [TraceStep.wait (e.time - elapsed i)] else []) ++
          (if stopFlag (c + 1) then
            [TraceStep.stopCheck (c + 1) true]
          else
            TraceStep.stopCheck (c + 1) false ::
              TraceStep.keypress e.key e.duration
                (simulate_keypress macos inject e.key e.duration) ::
              playback_run macos stopFlag elapsed inject rest (i + 1) (c + 2)))

/-- The `simulate_keypress` calls recorded in a trace, in order, with their
inputs and outcomes. -/
def keypressSteps : List TraceStep → List (List Char × ℚ × (List Action × Except String Unit))
  | [] => []
  | TraceStep.keypress k d out :: rest => (k, d, out) :: keypressSteps rest
  | _ :: rest => keypressSteps rest

/-- Whether every `true` cancellation-flag read in a trace is its final
step: nothing at all — in particular no key event — happens after a check
that observed the flag set. -/
def stop_ends_run : List TraceStep → Bool
  | [] => true
  | TraceStep.stopCheck _ true :: rest => rest.isEmpty
  | _ :: rest => stop_ends_run rest

/-- Whether a `Key` is one of the four modifier variants (everything except
`Key::Unicode`). -/
def isModKey : Key → Bool
  | Key.unicode _ => false
  | _ => true

/-- Number of modifier presses recorded in a trace. -/
def modPressCount (tr : List Action) : Nat :=
  tr.countP fun a =>
    match a with
    | Action.key k Dir.press => isModKey k
    | _ => false

/-- Number of modifier releases recorded in a trace. -/
def modReleaseCount (tr : List Action) : Nat :=
  tr.countP fun a =>
    match a with
    | Action.key k Dir.release => isModKey k
    | _ => false

/-- When every injection call succeeds, `execSeq` performs the whole plan in
order and succeeds. -/
theorem execSeq_all_true (l : List (Action × String)) :
    execSeq (fun _ => true) l = (l.map Prod.fst, Except.ok ()) := by
  induction l with
  | nil => rfl
  | cons p rest ih =>
    obtain ⟨a, msg⟩ := p
    cases a <;> simp [execSeq, ih]

/-- When `execSeq` succeeds, it performed exactly the planned actions in
order. -/
theorem execSeq_ok (inject : Action → Bool) (l : List (Action × String))
    (h : (execSeq inject l).2 = Except.ok ()) :
    (execSeq inject l).1 = l.map Prod.fst := by
  induction l with
  | nil => rfl
  | cons p rest ih =>
    obtain ⟨a, msg⟩ := p
    cases a with
    | sleep n =>
      simp only [execSeq] at h ⊢
      simp [ih h]
    | key k d =>
      simp only [execSeq] at h ⊢
      by_cases hi : inject (Action.key k d)
      · simp only [if_pos hi] at h ⊢
        simp [ih h]
      · rw [if_neg hi] at h
        exact absurd h (by simp)
    | raw kc d =>
      simp only [execSeq] at h ⊢
      by_cases hi : inject (Action.raw kc d)
      · simp only [if_pos hi] at h ⊢
        simp [ih h]
      · rw [if_neg hi] at h
        exact absurd h (by simp)

/-- When `execSeq` fails, it performed a strict initial part of the plan in
order: the plan splits at the failed call, and only the actions before it
ran. -/
theorem execSeq_err (inject : Action → Bool) (l : List (Action × String))
    (e : String) (h : (execSeq inject l).2 = Except.error e) :
    ∃ l1 p l2, l = l1 ++ p :: l2 ∧ (execSeq inject l).1 = l1.map Prod.fst := by
  induction l with
  | nil => exact absurd h (by simp [execSeq])
  | cons q rest ih =>
    obtain ⟨a, msg⟩ := q
    cases a with
    | sleep n =>
      simp only [execSeq] at h ⊢
      obtain ⟨l1, p, l2, hsplit, htr⟩ := ih h
      exact ⟨(Action.sleep n, msg) :: l1, p, l2, by simp [hsplit], by simp [htr]⟩
    | key k d =>
      simp only [execSeq] at h ⊢
      by_cases hi : inject (Action.key k d)
      · rw [if_pos hi] at h ⊢
        obtain ⟨l1, p, l2, hsplit, htr⟩ := ih h
        exact ⟨(Action.key k d, msg) :: l1, p, l2, by simp [hsplit], by simp [htr]⟩
      · rw [if_neg hi]
        exact ⟨[], (Action.key k d, msg), rest, by simp, by simp⟩
    | raw kc d =>
      simp only [execSeq] at h ⊢
      by_cases hi : inject (Action.raw kc d)
      · rw [if_pos hi] at h ⊢
        obtain ⟨l1, p, l2, hsplit, htr⟩ := ih h
        exact ⟨(Action.raw kc d, msg) :: l1, p, l2, by simp [hsplit], by simp [htr]⟩
      · rw [if_neg hi]
        exact ⟨[], (Action.raw kc d, msg), rest, by simp, by simp⟩

/-- The token split never produces an empty token list (Rust `split` always
yields at least one token). -/
theorem splitPlus_ne_nil (cs : List Char) : splitPlus cs ≠ [] := by
  induction cs with
  | nil => simp [splitPlus]
  | cons c rest ih =>
    simp only [splitPlus]
    split
    · simp
    · split <;> simp

/-- The modifier table only ever returns modifier keys. -/
theorem modifierOf_isMod (macos : Bool) (t : List Char) (k : Key)
    (h : modifierOf macos t = some k) : isModKey k = true := by
  simp only [modifierOf] at h
  split_ifs at h <;> simp_all <;> subst h <;> cases macos <;> rfl

/-- Any successful run of the token loop on a non-empty token list yields a
present main key. -/
theorem parseParts_isSome (macos : Bool) :
    ∀ (parts : List (List Char)) (ms : List Key) (mk : Option Char), parts ≠ [] →
      parseParts macos parts = Except.ok (ms, mk) → mk.isSome = true := by
  intro parts
  induction parts with
  | nil => intro ms mk hne; exact absurd rfl hne
  | cons part rest ih =>
    intro ms mk _ hp
    cases rest with
    | nil =>
      simp only [parseParts] at hp
      by_cases hb : byteLen part = 1
      · rw [if_pos hb] at hp
        cases part with
        | nil => simp [byteLen] at hb
        | cons c cs =>
          injection hp with hpair
          have : mk = some c := by
            have := congrArg Prod.snd hpair
            simpa using this.symm
          simp [this]
      · rw [if_neg hb] at hp
        exact absurd hp (by simp)
    | cons p2 r2 =>
      simp only [parseParts] at hp
      cases hm : modifierOf macos (part.map Char.toLower) with
      | none => rw [hm] at hp; exact absurd hp (by simp)
      | some k =>
        rw [hm] at hp
        cases hrec : parseParts macos (p2 :: r2) with
        | error e => rw [hrec] at hp; exact absurd hp (by simp)
        | ok pr =>
          rw [hrec] at hp
          obtain ⟨ms2, mk2⟩ := pr
          injection hp with hpair
          have hmk : mk2 = mk := by
            have := congrArg Prod.snd hpair
            simpa using this
          exact hmk ▸ ih ms2 mk2 (by simp) hrec

/-- Every key in the modifier list of a successful parse is a modifier
variant, never `Key::Unicode`. -/
theorem parseParts_mods_isMod (macos : Bool) :
    ∀ (parts : List (List Char)) (ms : List Key) (mk : Option Char),
      parseParts macos parts = Except.ok (ms, mk) →
      ∀ m ∈ ms, isModKey m = true := by
  intro parts
  induction parts with
  | nil =>
    intro ms mk hp
    simp only [parseParts] at hp
    injection hp with hpair
    have : ms = [] := by
      have := congrArg Prod.fst hpair
      simpa using this.symm
    simp [this]
  | cons part rest ih =>
    intro ms mk hp
    cases rest with
    | nil =>
      simp only [parseParts] at hp
      by_cases hb : byteLen part = 1
      · rw [if_pos hb] at hp
        injection hp with hpair
        have : ms = [] := by
          have := congrArg Prod.fst hpair
          simpa using this.symm
        simp [this]
      · rw [if_neg hb] at hp
        exact absurd hp (by simp)
    | cons p2 r2 =>
      simp only [parseParts] at hp
      cases hm : modifierOf macos (part.map Char.toLower) with
      | none => rw [hm] at hp; exact absurd hp (by simp)
      | some k =>
        rw [hm] at hp
        cases hrec : parseParts macos (p2 :: r2) with
        | error e => rw [hrec] at hp; exact absurd hp (by simp)
        | ok pr =>
          rw [hrec] at hp
          obtain ⟨ms2, mk2⟩ := pr
          injection hp with hpair
          have hms : k :: ms2 = ms := by
            have := congrArg Prod.fst hpair
            simpa using this
          intro m hmem
          rw [← hms] at hmem
          rcases List.mem_cons.mp hmem with h1 | h2
          · exact h1 ▸ modifierOf_isMod macos _ k hm
          · exact ih ms2 mk2 hrec m h2

/-- Characters are equal when their numeric code points are equal. -/
theorem char_toNat_inj {a b : Char} (h : a.toNat = b.toNat) : a = b :=
  Char.ext (UInt32.ext h)

/-- The order on characters is the order on their code points. -/
theorem char_le_iff {a b : Char} : a ≤ b ↔ a.toNat ≤ b.toNat := by
  rw [Char.le_def]
  exact Iff.rfl

/-- The code point of `Char.toLower`: ASCII uppercase letters are shifted by
32, everything else is unchanged. -/
theorem toLower_toNat (c : Char) :
    c.toLower.toNat = if 65 ≤ c.toNat ∧ c.toNat ≤ 90 then c.toNat + 32 else c.toNat := by
  rw [Char.toLower]
  split
  · next h =>
      have hv : (c.toNat + 32).isValidChar := Or.inl (by omega)
      rw [Char.ofNat, dif_pos hv]
      rfl
  · rfl

/-- ASCII lowercasing is idempotent. -/
theorem toLower_toLower (c : Char) : c.toLower.toLower = c.toLower := by
  have h := toLower_toNat c
  apply char_toNat_inj
  rw [toLower_toNat c.toLower]
  split
  · next h2 =>
      exfalso
      by_cases hc : 65 ≤ c.toNat ∧ c.toNat ≤ 90 <;> simp [hc] at h <;> omega
  · rfl

/-- The macOS key-code table is populated exactly on the lowercased letters
and digits. -/
theorem char_to_macos_keycode_isSome (c : Char) :
    (char_to_macos_keycode c).isSome = true ↔
      (('a' ≤ c.toLower ∧ c.toLower ≤ 'z') ∨ ('0' ≤ c.toLower ∧ c.toLower ≤ '9')) := by
  simp only [char_to_macos_keycode]
  split
  next h => rw [h]; decide
  next h => rw [h]; decide
  next h => rw [h]; decide
  next h => rw [h]; decide
  next h => rw [h]; decide
  next h => rw [h]; decide
  next h => rw [h]; decide
  next h => rw [h]; decide
  next h => rw [h]; decide
  next h => rw [h]; decide
  next h => rw [h]; decide
  next h => rw [h]; decide
  next h => rw [h]; decide
  next h => rw [h]; decide
  next h => rw [h]; decide
  next h => rw [h]; decide
  next h => rw [h]; decide
  next h => rw [h]; decide
  next h => rw [h]; decide
  next h => rw [h]; decide
  next h => rw [h]; decide
  next h => rw [h]; decide
  next h => rw [h]; decide
  next h => rw [h]; decide
  next h => rw [h]; decide
  next h => rw [h]; decide
  next h => rw [h]; decide
  next h => rw [h]; decide
  next h => rw [h]; decide
  next h => rw [h]; decide
  next h => rw [h]; decide
  next h => rw [h]; decide
  next h => rw [h]; decide
  next h => rw [h]; decide
  next h => rw [h]; decide
  next h => rw [h]; decide
  next x h1 h2 h3 h4 h5 h6 h7 h8 h9 h10 h11 h12 h13 h14 h15 h16 h17 h18 h19 h20 h21 h22 h23 h24 h25 h26 h27 h28 h29 h30 h31 h32 h33 h34 h35 h36 =>
    simp only [Option.isSome_none, Bool.false_eq_true, false_iff]
    intro hr
    have n1 : c.toLower.toNat ≠ 97 := fun hh => h1 (char_toNat_inj hh)
    have n2 : c.toLower.toNat ≠ 98 := fun hh => h2 (char_toNat_inj hh)
    have n3 : c.toLower.toNat ≠ 99 := fun hh => h3 (char_toNat_inj hh)
    have n4 : c.toLower.toNat ≠ 100 := fun hh => h4 (char_toNat_inj hh)
    have n5 : c.toLower.toNat ≠ 101 := fun hh => h5 (char_toNat_inj hh)
    have n6 : c.toLower.toNat ≠ 102 := fun hh => h6 (char_toNat_inj hh)
    have n7 : c.toLower.toNat ≠ 103 := fun hh => h7 (char_toNat_inj hh)
    have n8 : c.toLower.toNat ≠ 104 := fun hh => h8 (char_toNat_inj hh)
    have n9 : c.toLower.toNat ≠ 105 := fun hh => h9 (char_toNat_inj hh)
    have n10 : c.toLower.toNat ≠ 106 := fun hh => h10 (char_toNat_inj hh)
    have n11 : c.toLower.toNat ≠ 107 := fun hh => h11 (char_toNat_inj hh)
    have n12 : c.toLower.toNat ≠ 108 := fun hh => h12 (char_toNat_inj hh)
    have n13 : c.toLower.toNat ≠ 109 := fun hh => h13 (char_toNat_inj hh)
    have n14 : c.toLower.toNat ≠ 110 := fun hh => h14 (char_toNat_inj hh)
    have n15 : c.toLower.toNat ≠ 111 := fun hh => h15 (char_toNat_inj hh)
    have n16 : c.toLower.toNat ≠ 112 := fun hh => h16 (char_toNat_inj hh)
    have n17 : c.toLower.toNat ≠ 113 := fun hh => h17 (char_toNat_inj hh)
    have n18 : c.toLower.toNat ≠ 114 := fun hh => h18 (char_toNat_inj hh)
    have n19 : c.toLower.toNat ≠ 115 := fun hh => h19 (char_toNat_inj hh)
    have n20 : c.toLower.toNat ≠ 116 := fun hh => h20 (char_toNat_inj hh)
    have n21 : c.toLower.toNat ≠ 117 := fun hh => h21 (char_toNat_inj hh)
    have n22 : c.toLower.toNat ≠ 118 := fun hh => h22 (char_toNat_inj hh)
    have n23 : c.toLower.toNat ≠ 119 := fun hh => h23 (char_toNat_inj hh)
    have n24 : c.toLower.toNat ≠ 120 := fun hh => h24 (char_toNat_inj hh)
    have n25 : c.toLower.toNat ≠ 121 := fun hh => h25 (char_toNat_inj hh)
    have n26 : c.toLower.toNat ≠ 122 := fun hh => h26 (char_toNat_inj hh)
    have n27 : c.toLower.toNat ≠ 48 := fun hh => h27 (char_toNat_inj hh)
    have n28 : c.toLower.toNat ≠ 49 := fun hh => h28 (char_toNat_inj hh)
    have n29 : c.toLower.toNat ≠ 50 := fun hh => h29 (char_toNat_inj hh)
    have n30 : c.toLower.toNat ≠ 51 := fun hh => h30 (char_toNat_inj hh)
    have n31 : c.toLower.toNat ≠ 52 := fun hh => h31 (char_toNat_inj hh)
    have n32 : c.toLower.toNat ≠ 53 := fun hh => h32 (char_toNat_inj hh)
    have n33 : c.toLower.toNat ≠ 54 := fun hh => h33 (char_toNat_inj hh)
    have n34 : c.toLower.toNat ≠ 55 := fun hh => h34 (char_toNat_inj hh)
    have n35 : c.toLower.toNat ≠ 56 := fun hh => h35 (char_toNat_inj hh)
    have n36 : c.toLower.toNat ≠ 57 := fun hh => h36 (char_toNat_inj hh)
    rcases hr with ⟨hl, hu⟩ | ⟨hl, hu⟩
    · have hl2 : 97 ≤ c.toLower.toNat := char_le_iff.mp hl
      have hu2 : c.toLower.toNat ≤ 122 := char_le_iff.mp hu
      omega
    · have hl2 : 48 ≤ c.toLower.toNat := char_le_iff.mp hl
      have hu2 : c.toLower.toNat ≤ 57 := char_le_iff.mp hu
      omega

/-- The table reads its argument only through `Char.toLower`, so a character
and its lowercased form resolve to the same entry. -/
theorem char_to_macos_keycode_toLower (c : Char) :
    char_to_macos_keycode c.toLower = char_to_macos_keycode c := by
  simp only [char_to_macos_keycode, toLower_toLower]

/-- A run whose cancellation flag never reads `true` records one keypress
per supplied event, in sequence order, with the outcome of
`simulate_keypress` on that event — whether or not that outcome is an
error. -/
theorem keypressSteps_playback_run (macos : Bool) (elapsed : Nat → ℚ)
    (inject : Action → Bool) :
    ∀ (events : List KeyEvent) (i c : Nat),
      keypressSteps (playback_run macos (fun _ => false) elapsed inject events i c) =
        events.map fun e => (e.key, e.duration, simulate_keypress macos inject e.key e.duration) := by
  intro events
  induction events with
  | nil => intro i c; rfl
  | cons e rest ih =>
    intro i c
    simp only [playback_run]
    by_cases hw : elapsed i < e.time
    · simp [hw, keypressSteps, ih]
    · simp [hw, keypressSteps, ih]

/-- In every trace of the playback loop, a `true` cancellation check is the
final step. -/
theorem stop_ends_run_playback_run (macos : Bool) (stopFlag : Nat → Bool)
    (elapsed : Nat → ℚ) (inject : Action → Bool) :
    ∀ (events : List KeyEvent) (i c : Nat),
      stop_ends_run (playback_run macos stopFlag elapsed inject events i c) = true := by
  intro events
  induction events with
  | nil => intro i c; rfl
  | cons e rest ih =>
    intro i c
    simp only [playback_run]
    by_cases h1 : stopFlag c
    · simp [h1, stop_ends_run]
    · by_cases h2 : stopFlag (c + 1) <;> by_cases hw : elapsed i < e.time <;>
        simp [h1, h2, hw, stop_ends_run, ih]

/-- Every sleep performed by the playback loop is strictly positive: the
loop never sleeps a negative amount, and it does not sleep at all when the
target instant has already passed. -/
theorem wait_mem_playback_run (macos : Bool) (stopFlag : Nat → Bool)
    (elapsed : Nat → ℚ) (inject : Action → Bool) :
    ∀ (events : List KeyEvent) (i c : Nat) (w : ℚ),
      TraceStep.wait w ∈ playback_run macos stopFlag elapsed inject events i c → 0 < w := by
  intro events
  induction events with
  | nil => intro i c w hmem; simp [playback_run] at hmem
  | cons e rest ih =>
    intro i c w hmem
    simp only [playback_run] at hmem
    by_cases h1 : stopFlag c
    · simp [h1] at hmem
    · rw [if_neg h1] at hmem
      by_cases h2 : stopFlag (c + 1) <;> by_cases hw : elapsed i < e.time <;>
        simp [h2, hw] at hmem
      · linarith
      · rcases hmem with h | h
        · rw [h]; linarith
        · exact ih (i + 1) (c + 2) w h
      · exact ih (i + 1) (c + 2) w hmem

/-- C1: if the cancellation flag has been set, the playback loop executes no
further key events — the flag is read once before computing the wait for
each event and again immediately after the wait, a `true` read at either
check is the last step of the run (so every later event is dropped, not
executed), and in particular a `true` read at the pre-wait check ends the
run before any wait or keypress, and a `true` read at the post-wait check
ends it before that event's keypress. -/
theorem claim_C1_cancellation_ends_run (macos : Bool) (stopFlag : Nat → Bool)
    (elapsed : Nat → ℚ) (inject : Action → Bool) (events : List KeyEvent) (i c : Nat) :
    stop_ends_run (playback_run macos stopFlag elapsed inject events i c) = true ∧
    (stopFlag c = true → events ≠ [] →
      playback_run macos stopFlag elapsed inject events i c = [TraceStep.stopCheck c true]) ∧
    (stopFlag c = false → stopFlag (c + 1) = true → ∀ e rest, events = e :: rest →
      playback_run macos stopFlag elapsed inject events i c =
        TraceStep.stopCheck c false ::
          ((if elapsed i < e.time then [TraceStep.wait (e.time - elapsed i)] else []) ++
            [TraceStep.stopCheck (c + 1) true])) := by
  refine ⟨stop_ends_run_playback_run macos stopFlag elapsed inject events i c, ?_, ?_⟩
  · intro h1 hne
    cases events with
    | nil => exact absurd rfl hne
    | cons e rest => simp [playback_run, h1]
  · intro h1 h2 e rest hev
    subst hev
    simp [playback_run, h1, h2]

/-- The hypotheses of `claim_C1_cancellation_ends_run` hold at concrete
inputs: a run whose flag reads `true` at the first check does nothing, and
one whose flag turns `true` at the second check stops after the wait. -/
theorem claim_C1_cancellation_ends_run_witness :
    playback_run false (fun _ => true) (fun _ => 0) (fun _ => true)
        [⟨1, ['a'], 1⟩] 0 0 = [TraceStep.stopCheck 0 true] ∧
    playback_run false (fun k => decide (1 ≤ k)) (fun _ => 0) (fun _ => true)
        [⟨1, ['a'], 1⟩] 0 0 =
      TraceStep.stopCheck 0 false ::
        ((if (0 : ℚ) < (1 : ℚ) then [TraceStep.wait ((1 : ℚ) - 0)] else []) ++
          [TraceStep.stopCheck 1 true]) :=
  ⟨(claim_C1_cancellation_ends_run false (fun _ => true) (fun _ => 0) (fun _ => true)
      [⟨1, ['a'], 1⟩] 0 0).2.1 rfl (by simp),
   (claim_C1_cancellation_ends_run false (fun k => decide (1 ≤ k)) (fun _ => 0) (fun _ => true)
      [⟨1, ['a'], 1⟩] 0 0).2.2 rfl rfl ⟨1, ['a'], 1⟩ [] rfl⟩

/-- C2: `start_playback` fails with "Playback already in progress" whenever
a handle is stored, leaving the state unchanged and spawning nothing; with
no stored handle it clears the cancellation flag, spawns the run on the
supplied events, stores the new handle and returns success immediately. -/
theorem claim_C2_start_playback (s : PlaybackState) (events : List KeyEvent) (newId : Nat) :
    (s.playback_handle.isSome = true →
      start_playback s events newId = (s, none, Except.error "Playback already in progress")) ∧
    (s.playback_handle = none →
      start_playback s events newId =
        ({ playback_handle := some newId, should_stop := false }, some events, Except.ok ())) := by
  refine ⟨fun h => ?_, fun h => ?_⟩
  · simp [start_playback, h]
  · simp [start_playback, h]

/-- The hypotheses of `claim_C2_start_playback` hold at concrete inputs:
a busy state rejects a second start untouched, an idle state starts. -/
theorem claim_C2_start_playback_witness :
    start_playback ⟨some 3, true⟩ [] 7 =
      (⟨some 3, true⟩, none, Except.error "Playback already in progress") ∧
    start_playback ⟨none, true⟩ [] 7 =
      (⟨some 7, false⟩, some [], Except.ok ()) :=
  ⟨(claim_C2_start_playback ⟨some 3, true⟩ [] 7).1 rfl,
   (claim_C2_start_playback ⟨none, true⟩ [] 7).2 rfl⟩

/-- C5: with cancellation never signalled, a playback run records one
`simulate_keypress` attempt per event, in order, whatever each attempt's
outcome — an error for one event (parse or injection failure) is recorded
in the trace and never prevents the remaining events from running. -/
theorem claim_C5_errors_nonfatal (macos : Bool) (elapsed : Nat → ℚ)
    (inject : Action → Bool) (events : List KeyEvent) (i c : Nat) :
    keypressSteps (playback_run macos (fun _ => false) elapsed inject events i c) =
      events.map fun e => (e.key, e.duration, simulate_keypress macos inject e.key e.duration) :=
  keypressSteps_playback_run macos elapsed inject events i c

/-- C6: `stop_playback` always succeeds: it sets the cancellation flag,
takes the stored handle — leaving `none` — and joins exactly that handle;
a second call joins nothing, succeeds again, and leaves the handle `none`
both times. -/
theorem claim_C6_stop_playback (s : PlaybackState) :
    stop_playback s =
      ({ playback_handle := none, should_stop := true }, s.playback_handle, Except.ok ()) ∧
    stop_playback (stop_playback s).1 =
      ({ playback_handle := none, should_stop := true }, none, Except.ok ()) :=
  ⟨rfl, rfl⟩

/-- C8: the scheduler's wait computation is never negative and is zero as
soon as the target instant is not after the elapsed time; every sleep the
loop actually performs is strictly positive; when the target has passed the
loop proceeds directly to the event with no sleep step; and events run
back-to-back in sequence order — one keypress per event, unsorted and
unvalidated — even when the `time` values are not monotone. -/
theorem claim_C8_wait_never_negative :
    (∀ t el : ℚ, 0 ≤ wait_time t el) ∧
    (∀ t el : ℚ, t ≤ el → wait_time t el = 0) ∧
    (∀ (macos : Bool) (stopFlag : Nat → Bool) (elapsed : Nat → ℚ) (inject : Action → Bool)
        (events : List KeyEvent) (i c : Nat) (w : ℚ),
      TraceStep.wait w ∈ playback_run macos stopFlag elapsed inject events i c → 0 < w) ∧
    (∀ (macos : Bool) (stopFlag : Nat → Bool) (elapsed : Nat → ℚ) (inject : Action → Bool)
        (e : KeyEvent) (rest : List KeyEvent) (i c : Nat),
      stopFlag c = false → stopFlag (c + 1) = false → e.time ≤ elapsed i →
      playback_run macos stopFlag elapsed inject (e :: rest) i c =
        TraceStep.stopCheck c false :: TraceStep.stopCheck (c + 1) false ::
          TraceStep.keypress e.key e.duration
            (simulate_keypress macos inject e.key e.duration) ::
          playback_run macos stopFlag elapsed inject rest (i + 1) (c + 2)) ∧
    (∀ (macos : Bool) (elapsed : Nat → ℚ) (inject : Action → Bool)
        (events : List KeyEvent) (i c : Nat),
      keypressSteps (playback_run macos (fun _ => false) elapsed inject events i c) =
        events.map fun e => (e.key, e.duration, simulate_keypress macos inject e.key e.duration)) := by
  refine ⟨?_, ?_, ?_, ?_, ?_⟩
  · intro t el
    unfold wait_time
    split
    · next h => linarith
    · exact le_refl 0
  · intro t el h
    unfold wait_time
    rw [if_neg (by linarith)]
  · exact fun macos stopFlag elapsed inject events i c w =>
      wait_mem_playback_run macos stopFlag elapsed inject events i c w
  · intro macos stopFlag elapsed inject e rest i c h1 h2 ht
    simp [playback_run, h1, h2, not_lt.mpr ht]
  · exact fun macos elapsed inject events i c =>
      keypressSteps_playback_run macos elapsed inject events i c

/-- The hypotheses of `claim_C8_wait_never_negative` hold at concrete
inputs: a target already in the past gives zero wait and an immediate
back-to-back execution. -/
theorem claim_C8_wait_never_negative_witness :
    wait_time 2 5 = 0 ∧
    playback_run false (fun _ => false) (fun _ => 5) (fun _ => true) [⟨2, ['a'], 0⟩] 0 0 =
      TraceStep.stopCheck 0 false :: TraceStep.stopCheck 1 false ::
        TraceStep.keypress ['a'] 0
          (simulate_keypress false (fun _ => true) ['a'] 0) ::
        playback_run false (fun _ => false) (fun _ => 5) (fun _ => true) [] 1 2 :=
  ⟨claim_C8_wait_never_negative.2.1 2 5 (by norm_num),
   claim_C8_wait_never_negative.2.2.2.1 false (fun _ => false) (fun _ => 5) (fun _ => true)
     ⟨2, ['a'], 0⟩ [] 0 0 rfl rfl (by norm_num)⟩

/-- A successful `simulate_keypress` always performed the hold sleep: the
modifier-only path (which has no hold delay) is unreachable for any key
string that parses successfully. -/
theorem simulate_ok_sleep_mem (macos : Bool) (inject : Action → Bool) (cs : List Char)
    (d : ℚ) (ms : List Key) (c : Char)
    (hp : parse_key_string macos cs = Except.ok (ms, some c))
    (tr : List Action) (hok : simulate_keypress macos inject cs d = (tr, Except.ok ())) :
    Action.sleep (hold_millis d) ∈ tr := by
  simp only [simulate_keypress, hp] at hok
  cases hpm : (execSeq inject (ms.map fun m => (Action.key m Dir.press, "Failed to press modifier"))).2 with
  | error e => rw [hpm] at hok; simp at hok
  | ok u =>
    rw [hpm] at hok
    cases u
    cases macos with
    | false =>
      simp only [Bool.false_eq_true, if_false] at hok
      set plan : List (Action × String) :=
        [(Action.key (Key.unicode c) Dir.press, "Failed to press key"),
         (Action.sleep (hold_millis d), ""),
         (Action.key (Key.unicode c) Dir.release, "Failed to release key")] with hplan
      cases hmr : (execSeq inject plan).2 with
      | error e => rw [hmr] at hok; simp at hok
      | ok u2 =>
        rw [hmr] at hok
        cases u2
        have hmid := execSeq_ok inject plan hmr
        have htr : tr =
            (execSeq inject (ms.map fun m => (Action.key m Dir.press, "Failed to press modifier"))).1 ++
              (execSeq inject plan).1 ++
              (execSeq inject (ms.reverse.map fun m =>
                (Action.key m Dir.release, "Failed to release modifier"))).1 := by
          have h2 := congrArg Prod.fst hok
          simpa using h2.symm
        rw [htr, hmid]
        simp [hplan]
    | true =>
      rw [if_pos rfl] at hok
      cases hkc : char_to_macos_keycode c with
      | none => rw [hkc] at hok; simp at hok
      | some kc =>
        rw [hkc] at hok
        set plan : List (Action × String) :=
          [(Action.raw kc Dir.press, "Failed to press key"),
           (Action.sleep (hold_millis d), ""),
           (Action.raw kc Dir.release, "Failed to release key")] with hplan
        cases hmr : (execSeq inject plan).2 with
        | error e => rw [hmr] at hok; simp at hok
        | ok u2 =>
          rw [hmr] at hok
          cases u2
          have hmid := execSeq_ok inject plan hmr
          have htr : tr =
              (execSeq inject (ms.map fun m => (Action.key m Dir.press, "Failed to press modifier"))).1 ++
                (execSeq inject plan).1 ++
                (execSeq inject (ms.reverse.map fun m =>
                  (Action.key m Dir.release, "Failed to release modifier"))).1 := by
            have h2 := congrArg Prod.fst hok
            simpa using h2.symm
          rw [htr, hmid]
          simp [hplan]

/-- C10: a successful parse always carries a main key (`Option.isSome`),
and consequently every successful `simulate_keypress` run includes the hold
sleep — the modifier-only, no-hold path is unreachable from any key string
that parses. -/
theorem claim_C10_main_key_present (macos : Bool) (cs : List Char) (ms : List Key)
    (mk : Option Char) (h : parse_key_string macos cs = Except.ok (ms, mk)) :
    mk.isSome = true ∧
    (∀ (inject : Action → Bool) (d : ℚ) (tr : List Action),
      simulate_keypress macos inject cs d = (tr, Except.ok ()) →
      Action.sleep (hold_millis d) ∈ tr) := by
  have hsome : mk.isSome = true :=
    parseParts_isSome macos (splitPlus cs) ms mk (splitPlus_ne_nil cs) h
  refine ⟨hsome, ?_⟩
  intro inject d tr hok
  cases mk with
  | none => simp at hsome
  | some c => exact simulate_ok_sleep_mem macos inject cs d ms c h tr hok

/-- The hypotheses of `claim_C10_main_key_present` hold at a concrete
input: the key string "a" parses and a successful run holds the key. -/
theorem claim_C10_main_key_present_witness :
    (some 'a').isSome = true ∧
    Action.sleep (hold_millis 0) ∈ (simulate_keypress false (fun _ => true) ['a'] 0).1 :=
  by
  have hp : parse_key_string false ['a'] = Except.ok ([], some 'a') := by decide
  have hs : simulate_keypress false (fun _ => true) ['a'] 0 =
      ((simulate_keypress false (fun _ => true) ['a'] 0).1, Except.ok ()) := rfl
  exact ⟨(claim_C10_main_key_present false ['a'] [] (some 'a') hp).1,
    (claim_C10_main_key_present false ['a'] [] (some 'a') hp).2 (fun _ => true) 0
      (simulate_keypress false (fun _ => true) ['a'] 0).1 hs⟩

/-- Every action a run of `execSeq` performed was drawn from its plan. -/
theorem execSeq_trace_sub (inject : Action → Bool) (l : List (Action × String)) :
    ∀ a ∈ (execSeq inject l).1, a ∈ l.map Prod.fst := by
  induction l with
  | nil => intro a ha; simp [execSeq] at ha
  | cons q rest ih =>
    intro a ha
    obtain ⟨b, msg⟩ := q
    cases b with
    | sleep n =>
      simp only [execSeq] at ha
      rcases List.mem_cons.mp ha with h | h
      · simp [h]
      · simp [ih a h]
    | key k d =>
      simp only [execSeq] at ha
      by_cases hi : inject (Action.key k d)
      · rw [if_pos hi] at ha
        rcases List.mem_cons.mp ha with h | h
        · simp [h]
        · simp [ih a h]
      · rw [if_neg hi] at ha
        simp at ha
    | raw kc d =>
      simp only [execSeq] at ha
      by_cases hi : inject (Action.raw kc d)
      · rw [if_pos hi] at ha
        rcases List.mem_cons.mp ha with h | h
        · simp [h]
        · simp [ih a h]
      · rw [if_neg hi] at ha
        simp at ha

/-- Splitting modifier-press counts over concatenation. -/
theorem modPressCount_append (a b : List Action) :
    modPressCount (a ++ b) = modPressCount a + modPressCount b :=
  List.countP_append _ a b

/-- Splitting modifier-release counts over concatenation. -/
theorem modReleaseCount_append (a b : List Action) :
    modReleaseCount (a ++ b) = modReleaseCount a + modReleaseCount b :=
  List.countP_append _ a b

/-- A trace made only of presses of modifier keys counts one press per key
and no releases. -/
theorem press_trace_counts (ms : List Key) (h : ∀ m ∈ ms, isModKey m = true) :
    modPressCount (ms.map fun m => Action.key m Dir.press) = ms.length ∧
    modReleaseCount (ms.map fun m => Action.key m Dir.press) = 0 := by
  constructor
  · rw [modPressCount, ← List.length_map ms (fun m => Action.key m Dir.press),
      List.countP_eq_length]
    intro a ha
    obtain ⟨m, hm, rfl⟩ := List.mem_map.mp ha
    simpa using h m hm
  · rw [modReleaseCount]
    rw [List.countP_eq_zero]
    intro a ha
    obtain ⟨m, hm, rfl⟩ := List.mem_map.mp ha
    simp

/-- No action counts as a modifier release unless it is a `key` release of a
modifier variant. -/
theorem modReleaseCount_eq_zero (tr : List Action)
    (h : ∀ a ∈ tr, ∀ k, a ≠ Action.key k Dir.release ∨ isModKey k = false) :
    modReleaseCount tr = 0 := by
  rw [modReleaseCount, List.countP_eq_zero]
  intro a ha
  cases a with
  | key k d =>
    cases d with
    | press => simp
    | release =>
      rcases h (Action.key k Dir.release) ha k with hne | hmod
      · exact absurd rfl hne
      · simp [hmod]
  | raw kc d => simp
  | sleep n => simp

/-- C9: when `simulate_keypress` fails after pressing at least one
modifier, it returns the error with strictly fewer modifier releases than
modifier presses performed — there is no cleanup path, so the pressed
modifiers are not undone. -/
theorem claim_C9_no_modifier_cleanup (macos : Bool) (inject : Action → Bool)
    (cs : List Char) (d : ℚ) (tr : List Action) (e : String)
    (herr : simulate_keypress macos inject cs d = (tr, Except.error e))
    (hpress : 0 < modPressCount tr) :
    modReleaseCount tr < modPressCount tr := by
  cases hps : parse_key_string macos cs with
  | error pe =>
    simp only [simulate_keypress, hps] at herr
    have htr : tr = [] := by
      have h2 := (congrArg Prod.fst herr).symm
      simpa using h2
    rw [htr] at hpress
    simp [modPressCount] at hpress
  | ok pr =>
    obtain ⟨mods, mk⟩ := pr
    have hmods : ∀ m ∈ mods, isModKey m = true :=
      parseParts_mods_isMod macos (splitPlus cs) mods mk hps
    simp only [simulate_keypress, hps] at herr
    cases hpm : (execSeq inject (mods.map fun m =>
        (Action.key m Dir.press, "Failed to press modifier"))).2 with
    | error e1 =>
      simp only [hpm] at herr
      have htr : tr = (execSeq inject (mods.map fun m =>
          (Action.key m Dir.press, "Failed to press modifier"))).1 := by
        have h2 := (congrArg Prod.fst herr).symm
        simpa using h2
      have hz : modReleaseCount tr = 0 := by
        apply modReleaseCount_eq_zero
        intro a ha k
        rw [htr] at ha
        have hmem := execSeq_trace_sub inject _ a ha
        rw [List.map_map] at hmem
        obtain ⟨m, hm, rfl⟩ := List.mem_map.mp hmem
        left
        simp
      rw [hz]
      exact hpress
    | ok u =>
      cases u
      simp only [hpm] at herr
      have hpm1 : (execSeq inject (mods.map fun m =>
          (Action.key m Dir.press, "Failed to press modifier"))).1
          = mods.map fun m => Action.key m Dir.press := by
        rw [execSeq_ok _ _ hpm, List.map_map]
        rfl
      cases mk with
      | none =>
        cases hrm : (execSeq inject (mods.reverse.map fun m =>
            (Action.key m Dir.release, "Failed to release modifier"))).2 with
        | ok u3 =>
          simp only [hrm] at herr
          exact absurd (congrArg Prod.snd herr) (by simp)
        | error e3 =>
          simp only [hrm] at herr
          have htr : tr = (mods.map fun m => Action.key m Dir.press) ++
              (execSeq inject (mods.reverse.map fun m =>
                (Action.key m Dir.release, "Failed to release modifier"))).1 := by
            have h2 := (congrArg Prod.fst herr).symm
            simpa [hpm1] using h2
          obtain ⟨l1, p, l2, hsplit, htr3⟩ := execSeq_err inject _ e3 hrm
          have hlen : (execSeq inject (mods.reverse.map fun m =>
              (Action.key m Dir.release, "Failed to release modifier"))).1.length
              < mods.length := by
            rw [htr3, List.length_map]
            have hl := congrArg List.length hsplit
            simp at hl
            omega
          have hcounts := press_trace_counts mods hmods
          have hrel := List.countP_le_length (l := (execSeq inject (mods.reverse.map fun m =>
            (Action.key m Dir.release, "Failed to release modifier"))).1)
            (p := fun a =>
              match a with
              | Action.key k Dir.release => isModKey k
              | _ => false)
          rw [htr, modReleaseCount_append, modPressCount_append, hcounts.1, hcounts.2]
          have h0 : modReleaseCount (execSeq inject (mods.reverse.map fun m =>
              (Action.key m Dir.release, "Failed to release modifier"))).1 ≤
              (execSeq inject (mods.reverse.map fun m =>
                (Action.key m Dir.release, "Failed to release modifier"))).1.length := hrel
          omega
      | some c =>
        cases macos with
        | true =>
          simp only [eq_self_iff_true, if_true] at herr
          cases hkc : char_to_macos_keycode c with
          | none =>
            simp only [hkc] at herr
            have htr : tr = mods.map fun m => Action.key m Dir.press := by
              have h2 := (congrArg Prod.fst herr).symm
              simpa [hpm1] using h2
            have hz : modReleaseCount tr = 0 := by
              rw [htr]
              exact (press_trace_counts mods hmods).2
            rw [hz]
            exact hpress
          | some kc =>
            simp only [hkc] at herr
            cases hmr : (execSeq inject
                [(Action.raw kc Dir.press, "Failed to press key"),
                 (Action.sleep (hold_millis d), ""),
                 (Action.raw kc Dir.release, "Failed to release key")]).2 with
            | error e2 =>
              simp only [hmr] at herr
              have htr : tr = (mods.map fun m => Action.key m Dir.press) ++
                  (execSeq inject
                    [(Action.raw kc Dir.press, "Failed to press key"),
                     (Action.sleep (hold_millis d), ""),
                     (Action.raw kc Dir.release, "Failed to release key")]).1 := by
                have h2 := (congrArg Prod.fst herr).symm
                simpa [hpm1] using h2
              have hz : modReleaseCount tr = 0 := by
                rw [htr, modReleaseCount_append, (press_trace_counts mods hmods).2]
                have hmid : modReleaseCount (execSeq inject
                    [(Action.raw kc Dir.press, "Failed to press key"),
                     (Action.sleep (hold_millis d), ""),
                     (Action.raw kc Dir.release, "Failed to release key")]).1 = 0 := by
                  apply modReleaseCount_eq_zero
                  intro a ha k
                  have hmem := execSeq_trace_sub inject _ a ha
                  simp at hmem
                  left
                  rcases hmem with rfl | rfl | rfl <;> simp
                omega
              rw [hz]
              exact hpress
            | ok u2 =>
              cases u2
              simp only [hmr] at herr
              have hmid1 := execSeq_ok inject
                [(Action.raw kc Dir.press, "Failed to press key"),
                 (Action.sleep (hold_millis d), ""),
                 (Action.raw kc Dir.release, "Failed to release key")] hmr
              cases hrm : (execSeq inject (mods.reverse.map fun m =>
                  (Action.key m Dir.release, "Failed to release modifier"))).2 with
              | ok u3 =>
                simp only [hrm] at herr
                exact absurd (congrArg Prod.snd herr) (by simp)
              | error e3 =>
                simp only [hrm] at herr
                have htr : tr = (mods.map fun m => Action.key m Dir.press) ++
                    ([Action.raw kc Dir.press, Action.sleep (hold_millis d),
                      Action.raw kc Dir.release] ++
                      (execSeq inject (mods.reverse.map fun m =>
                        (Action.key m Dir.release, "Failed to release modifier"))).1) := by
                  have h2 := (congrArg Prod.fst herr).symm
                  simpa [hpm1, hmid1] using h2
                obtain ⟨l1, p, l2, hsplit, htr3⟩ := execSeq_err inject _ e3 hrm
                have hlen : (execSeq inject (mods.reverse.map fun m =>
                    (Action.key m Dir.release, "Failed to release modifier"))).1.length
                    < mods.length := by
                  rw [htr3, List.length_map]
                  have hl := congrArg List.length hsplit
                  simp at hl
                  omega
                have hcounts := press_trace_counts mods hmods
                have hrel := List.countP_le_length (l := (execSeq inject (mods.reverse.map fun m =>
                  (Action.key m Dir.release, "Failed to release modifier"))).1)
                  (p := fun a =>
                    match a with
                    | Action.key k Dir.release => isModKey k
                    | _ => false)
                rw [htr, modReleaseCount_append, modPressCount_append,
                  modReleaseCount_append, modPressCount_append, hcounts.1, hcounts.2]
                simp only [modPressCount, modReleaseCount, List.countP_cons, List.countP_nil] at *
                omega
        | false =>
          simp only [Bool.false_eq_true, if_false] at herr
          cases hmr : (execSeq inject
              [(Action.key (Key.unicode c) Dir.press, "Failed to press key"),
               (Action.sleep (hold_millis d), ""),
               (Action.key (Key.unicode c) Dir.release, "Failed to release key")]).2 with
          | error e2 =>
            simp only [hmr] at herr
            have htr : tr = (mods.map fun m => Action.key m Dir.press) ++
                (execSeq inject
                  [(Action.key (Key.unicode c) Dir.press, "Failed to press key"),
                   (Action.sleep (hold_millis d), ""),
                   (Action.key (Key.unicode c) Dir.release, "Failed to release key")]).1 := by
              have h2 := (congrArg Prod.fst herr).symm
              simpa [hpm1] using h2
            have hz : modReleaseCount tr = 0 := by
              rw [htr, modReleaseCount_append, (press_trace_counts mods hmods).2]
              have hmid : modReleaseCount (execSeq inject
                  [(Action.key (Key.unicode c) Dir.press, "Failed to press key"),
                   (Action.sleep (hold_millis d), ""),
                   (Action.key (Key.unicode c) Dir.release, "Failed to release key")]).1 = 0 := by
                apply modReleaseCount_eq_zero
                intro a ha k
                have hmem := execSeq_trace_sub inject _ a ha
                simp at hmem
                rcases hmem with rfl | rfl | rfl
                · left; simp
                · left; simp
                · by_cases hk : k = Key.unicode c
                  · right; rw [hk]; rfl
                  · left
                    intro hcon
                    injection hcon with h1 h2
                    exact hk h1.symm
              omega
            rw [hz]
            exact hpress
          | ok u2 =>
            cases u2
            simp only [hmr] at herr
            have hmid1 := execSeq_ok inject
              [(Action.key (Key.unicode c) Dir.press, "Failed to press key"),
               (Action.sleep (hold_millis d), ""),
               (Action.key (Key.unicode c) Dir.release, "Failed to release key")] hmr
            cases hrm : (execSeq inject (mods.reverse.map fun m =>
                (Action.key m Dir.release, "Failed to release modifier"))).2 with
            | ok u3 =>
              simp only [hrm] at herr
              exact absurd (congrArg Prod.snd herr) (by simp)
            | error e3 =>
              simp only [hrm] at herr
              have htr : tr = (mods.map fun m => Action.key m Dir.press) ++
                  ([Action.key (Key.unicode c) Dir.press, Action.sleep (hold_millis d),
                    Action.key (Key.unicode c) Dir.release] ++
                    (execSeq inject (mods.reverse.map fun m =>
                      (Action.key m Dir.release, "Failed to release modifier"))).1) := by
                have h2 := (congrArg Prod.fst herr).symm
                simpa [hpm1, hmid1] using h2
              obtain ⟨l1, p, l2, hsplit, htr3⟩ := execSeq_err inject _ e3 hrm
              have hlen : (execSeq inject (mods.reverse.map fun m =>
                  (Action.key m Dir.release, "Failed to release modifier"))).1.length
                  < mods.length := by
                rw [htr3, List.length_map]
                have hl := congrArg List.length hsplit
                simp at hl
                omega
              have hcounts := press_trace_counts mods hmods
              have hrel := List.countP_le_length (l := (execSeq inject (mods.reverse.map fun m =>
                (Action.key m Dir.release, "Failed to release modifier"))).1)
                (p := fun a =>
                  match a with
                  | Action.key k Dir.release => isModKey k
                  | _ => false)
              rw [htr, modReleaseCount_append, modPressCount_append,
                modReleaseCount_append, modPressCount_append, hcounts.1, hcounts.2]
              simp only [modPressCount, modReleaseCount, List.countP_cons, List.countP_nil] at *
              omega

/-- The hypotheses of `claim_C9_no_modifier_cleanup` hold at a concrete
input: with Shift pressed and the main-key injection failing, the error
leaves the Shift press without a matching release. -/
theorem claim_C9_no_modifier_cleanup_witness :
    modReleaseCount [Action.key Key.shift Dir.press] <
      modPressCount [Action.key Key.shift Dir.press] := by
  have herr : simulate_keypress false
      (fun a => match a with | Action.key (Key.unicode _) _ => false | _ => true)
      ['s', 'h', 'i', 'f', 't', '+', 'b'] 1 =
      ([Action.key Key.shift Dir.press], Except.error "Failed to press key") := rfl
  exact claim_C9_no_modifier_cleanup false
    (fun a => match a with | Action.key (Key.unicode _) _ => false | _ => true)
    ['s', 'h', 'i', 'f', 't', '+', 'b'] 1 [Action.key Key.shift Dir.press]
    "Failed to press key" herr (by decide)

/-- C7: `char_to_macos_keycode` is populated exactly on the 36 characters
`a`–`z`, `0`–`9`, case-insensitively — a character resolves iff its ASCII
lowercasing is a lowercase letter or digit, and a character resolves to the
same code as its lowercased form — and on the position-based platform a
character outside the table surfaces from `simulate_keypress` as an
"Unsupported character" error. -/
theorem claim_C7_keycode_table :
    (∀ c : Char, (char_to_macos_keycode c).isSome = true ↔
      (('a' ≤ c.toLower ∧ c.toLower ≤ 'z') ∨ ('0' ≤ c.toLower ∧ c.toLower ≤ '9'))) ∧
    (∀ c : Char, char_to_macos_keycode c.toLower = char_to_macos_keycode c) ∧
    (∀ (cs : List Char) (d : ℚ) (ms : List Key) (ch : Char),
      parse_key_string true cs = Except.ok (ms, some ch) →
      char_to_macos_keycode ch = none →
      simulate_keypress true (fun _ => true) cs d =
        (ms.map fun m => Action.key m Dir.press,
         Except.error ("Unsupported character: " ++ String.mk [ch]))) := by
  refine ⟨char_to_macos_keycode_isSome, char_to_macos_keycode_toLower, ?_⟩
  intro cs d ms ch hp hkc
  simp only [simulate_keypress, hp, execSeq_all_true]
  simp [hkc, List.map_map]

/-- The hypotheses of `claim_C7_keycode_table` hold at a concrete input:
the parsed key "-" is outside the table and yields the error. -/
theorem claim_C7_keycode_table_witness :
    simulate_keypress true (fun _ => true) ['-'] 1 =
      ([], Except.error ("Unsupported character: " ++ String.mk ['-'])) := by
  have hp : parse_key_string true ['-'] = Except.ok ([], some '-') := by decide
  have hkc : char_to_macos_keycode '-' = none := by decide
  exact claim_C7_keycode_table.2.2 ['-'] 1 [] '-' hp hkc

/-- C3 is false as stated: at duration 1/16 s the requested hold is
max(1/16, 0.05) = 0.0625 s = 62.5 ms, but the code sleeps
`(duration * 1000.0).max(50.0) as u64` = 62 whole milliseconds — the
`as u64` truncation makes the performed hold shorter than max(d, 0.05)
seconds. -/
theorem claim_C3_counterexample :
    (simulate_keypress false (fun _ => true) ['a'] (1 / 16)).1 =
      [Action.key (Key.unicode 'a') Dir.press, Action.sleep (hold_millis (1 / 16)),
       Action.key (Key.unicode 'a') Dir.release] ∧
    hold_millis (1 / 16) = 62 ∧
    ((62 : ℚ) / 1000) ≠ max (1 / 16 : ℚ) (5 / 100) := by
  have h62 : hold_millis (1 / 16) = 62 := by
    show (⌊max ((1 / 16 : ℚ) * 1000) 50⌋).toNat = 62
    have h1 : max ((1 / 16 : ℚ) * 1000) 50 = 125 / 2 := by
      rw [max_eq_left (by norm_num)]
      norm_num
    rw [h1]
    have h2 : ⌊(125 / 2 : ℚ)⌋ = 62 := by
      rw [Int.floor_eq_iff]
      constructor <;> norm_num
    rw [h2]
    rfl
  refine ⟨rfl, h62, ?_⟩
  rw [max_eq_left (by norm_num : (5 / 100 : ℚ) ≤ 1 / 16)]
  norm_num

/-- C3 (amended): for every parsed key with modifiers `ms` and main
character `c`, with all injections succeeding, `simulate_keypress` performs
exactly: press the modifiers in written order, press `c` via the platform
representation, sleep `⌊max(d·1000, 50)⌋` whole milliseconds (max(d, 0.05)
seconds truncated to milliseconds), release `c`, release the modifiers in
reverse order; the hold is at least 50 ms even when `d` is zero or
negative. -/
theorem claim_C3_keypress_protocol (macos : Bool) (cs : List Char) (d : ℚ)
    (ms : List Key) (c : Char)
    (hp : parse_key_string macos cs = Except.ok (ms, some c)) :
    50 ≤ hold_millis d ∧
    (macos = false →
      simulate_keypress false (fun _ => true) cs d =
        ((ms.map fun m => Action.key m Dir.press) ++
          ([Action.key (Key.unicode c) Dir.press, Action.sleep (hold_millis d),
            Action.key (Key.unicode c) Dir.release] ++
            (ms.reverse.map fun m => Action.key m Dir.release)), Except.ok ())) ∧
    (macos = true → ∀ kc, char_to_macos_keycode c = some kc →
      simulate_keypress true (fun _ => true) cs d =
        ((ms.map fun m => Action.key m Dir.press) ++
          ([Action.raw kc Dir.press, Action.sleep (hold_millis d),
            Action.raw kc Dir.release] ++
            (ms.reverse.map fun m => Action.key m Dir.release)), Except.ok ())) := by
  refine ⟨?_, ?_, ?_⟩
  · have h1 : (50 : ℤ) ≤ ⌊max (d * 1000) 50⌋ := by
      rw [Int.le_floor]
      exact_mod_cast le_max_right (d * 1000) 50
    calc (50 : ℕ) = (50 : ℤ).toNat := rfl
      _ ≤ _ := Int.toNat_le_toNat h1
  · intro hm
    subst hm
    simp only [simulate_keypress, hp, execSeq_all_true, Bool.false_eq_true, if_false]
    simp only [List.map_map, List.append_assoc]
    rfl
  · intro hm kc hkc
    subst hm
    simp only [simulate_keypress, hp, execSeq_all_true, eq_self_iff_true, if_true, hkc]
    simp only [List.map_map, List.append_assoc]
    rfl

/-- The hypotheses of `claim_C3_keypress_protocol` hold at concrete inputs:
"shift+b" on the Unicode platform and "a" on the position-based platform. -/
theorem claim_C3_keypress_protocol_witness :
    50 ≤ hold_millis 1 ∧
    simulate_keypress false (fun _ => true) ['s', 'h', 'i', 'f', 't', '+', 'b'] 1 =
      (([Key.shift].map fun m => Action.key m Dir.press) ++
        ([Action.key (Key.unicode 'b') Dir.press, Action.sleep (hold_millis 1),
          Action.key (Key.unicode 'b') Dir.release] ++
          ([Key.shift].reverse.map fun m => Action.key m Dir.release)), Except.ok ()) ∧
    simulate_keypress true (fun _ => true) ['a'] 1 =
      ((([] : List Key).map fun m => Action.key m Dir.press) ++
        ([Action.raw 0 Dir.press, Action.sleep (hold_millis 1), Action.raw 0 Dir.release] ++
          (([] : List Key).reverse.map fun m => Action.key m Dir.release)), Except.ok ()) := by
  have hp1 : parse_key_string false ['s', 'h', 'i', 'f', 't', '+', 'b'] =
      Except.ok ([Key.shift], some 'b') := by decide
  have hp2 : parse_key_string true ['a'] = Except.ok ([], some 'a') := by decide
  exact ⟨(claim_C3_keypress_protocol false ['s', 'h', 'i', 'f', 't', '+', 'b'] 1
      [Key.shift] 'b' hp1).1,
    (claim_C3_keypress_protocol false ['s', 'h', 'i', 'f', 't', '+', 'b'] 1
      [Key.shift] 'b' hp1).2.1 rfl,
    (claim_C3_keypress_protocol true ['a'] 1 [] 'a' hp2).2.2 rfl 0 (by decide)⟩

/-- The source's modifier table agrees with the specification-side table on
every token. -/
theorem modifierSpec_eq_modifierOf (macos : Bool) (t : List Char) :
    modifierSpec macos t = modifierOf macos (t.map Char.toLower) := by
  simp only [modifierSpec, modifierOf]
  by_cases h1 : t.map Char.toLower = ['s', 'h', 'i', 'f', 't']
  · simp [h1]
  · by_cases h2 : t.map Char.toLower = ['c', 't', 'r', 'l'] ∨
        t.map Char.toLower = ['c', 'o', 'n', 't', 'r', 'o', 'l']
    · have halt : ¬t.map Char.toLower = ['a', 'l', 't'] := by
        rcases h2 with h | h <;> rw [h] <;> decide
      have hmeta : ¬(t.map Char.toLower = ['m', 'e', 't', 'a'] ∨
          t.map Char.toLower = ['c', 'm', 'd'] ∨
          t.map Char.toLower = ['c', 'o', 'm', 'm', 'a', 'n', 'd'] ∨
          t.map Char.toLower = ['w', 'i', 'n'] ∨
          t.map Char.toLower = ['s', 'u', 'p', 'e', 'r']) := by
        rcases h2 with h | h <;> rw [h] <;> decide
      cases macos <;> simp [h1, h2, halt, hmeta]
    · by_cases h3 : t.map Char.toLower = ['a', 'l', 't']
      · simp [h1, h2, h3]
      · by_cases h4 : t.map Char.toLower = ['m', 'e', 't', 'a'] ∨
            t.map Char.toLower = ['c', 'm', 'd'] ∨
            t.map Char.toLower = ['c', 'o', 'm', 'm', 'a', 'n', 'd'] ∨
            t.map Char.toLower = ['w', 'i', 'n'] ∨
            t.map Char.toLower = ['s', 'u', 'p', 'e', 'r']
        · simp [h1, h2, h3, h4]
        · simp [h1, h2, h3, h4]

/-- The token loop of the source parser computes exactly what the
specification-side parser describes, on any non-empty token list. -/
theorem parseParts_eq_spec (macos : Bool) :
    ∀ parts : List (List Char), parts ≠ [] →
      parseParts macos parts =
        match firstUnknownModifier macos parts.dropLast with
        | some t => Except.error ("Unknown modifier key: " ++ String.mk t)
        | none =>
          if byteLen (parts.getLast?.getD []) = 1 then
            Except.ok (parts.dropLast.filterMap (modifierSpec macos),
              (parts.getLast?.getD []).head?)
          else
            Except.error ("Invalid main key: " ++ String.mk (parts.getLast?.getD [])) := by
  intro parts
  induction parts with
  | nil => intro h; exact absurd rfl h
  | cons x rest ih =>
    intro _
    cases rest with
    | nil => simp [parseParts, firstUnknownModifier]
    | cons y r2 =>
      have hih := ih (by simp)
      simp only [parseParts, List.dropLast_cons_of_ne_nil (l := y :: r2) (by simp),
        List.getLast?_cons_cons, firstUnknownModifier]
      rw [← modifierSpec_eq_modifierOf]
      cases hms : modifierSpec macos x with
      | none => simp [hms]
      | some k =>
        simp only [hms, Option.isSome_some, if_true]
        rw [hih]
        cases hfu : firstUnknownModifier macos (y :: r2).dropLast with
        | some t => simp [hfu]
        | none =>
          simp only [hfu]
          by_cases hb : byteLen (((y :: r2).getLast?).getD []) = 1
          · simp [hb, hms]
          · simp [hb]

/-- C4 is false as stated: the final token `é` is exactly one character —
neither empty nor multi-character — yet the parser rejects it, because the
`part.len() == 1` test counts UTF-8 bytes and `é` occupies two. -/
theorem claim_C4_counterexample :
    parse_key_string false ['é'] =
      Except.error ("Invalid main key: " ++ String.mk ['é']) ∧
    ['é'].length = 1 ∧ 'é'.utf8Size = 2 :=
  ⟨by decide, rfl, by decide⟩

/-- C4 (amended): for every key expression string, `parse_key_string`
computes exactly the specification-side parser `parse_key_spec`: it splits
on `'+'`, maps each non-final token case-insensitively through the modifier
table in left-to-right written order (reporting the first unrecognized
token), and takes the final token as the single main-key character,
requiring it to be one UTF-8 byte — a single ASCII character — so that
empty, multi-character, and single non-ASCII final tokens are all
rejected. -/
theorem claim_C4_parse_refines_spec (macos : Bool) (cs : List Char) :
    parse_key_string macos cs = parse_key_spec macos cs := by
  simp only [parse_key_string, parse_key_spec]
  exact parseParts_eq_spec macos (splitPlus cs) (splitPlus_ne_nil cs)

end KeypressSim
